import Mathlib

/-!
Shallow embedding of the core of `verses.py` (Sanskrit Chandas & Prosody
Analyzer): the syllable segmenter `verse_to_LG_and_syllables`, the metrics
(`shannon_entropy`, `transition_matrix`, `split_padas`, the L/G counts, the
guru ratio and the heaviness label) and the iterative `pingala_count`,
together with theorems settling the specification claims about them.

Modelling conventions:
* a Python string is a `List Char` of Unicode code points;
* the weight characters `'L'` / `'G'` are the two-constructor type `Weight`;
* Python's exact float arithmetic on these small rationals is idealised as
  exact arithmetic: `ℚ` where only field operations occur (ratio, thresholds),
  `ℝ` where `math.log2` is involved (entropy);
* Python's `round(x, d)` (round-half-to-even on floats) is modelled by
  `pyRound x d` built on Mathlib's `round` (round-half-up); the two agree
  except on exact half-multiples of `10 ^ (-d)`, which never arise in the
  statements proved here (entropy values at which they could differ are
  irrational, and the rational ratio counterexample is not a half-multiple).
-/

namespace Verses

/-- The two syllable-weight symbols: the characters `'L'` (laghu) and `'G'`
(guru) that `verses.py` appends to its `LG` list. -/
inductive Weight where
  | L : Weight
  | G : Weight
deriving DecidableEq, Repr

/-- Source string `VOWELS = "अआइईउऊऋएऐओऔ"`: the independent Devanagari vowels, by code
point: अ आ इ ई उ ऊ ऋ ए ऐ ओ औ. -/
def VOWELS : List Char :=
  [Char.ofNat 0x0905, Char.ofNat 0x0906, Char.ofNat 0x0907, Char.ofNat 0x0908,
   Char.ofNat 0x0909, Char.ofNat 0x090A, Char.ofNat 0x090B, Char.ofNat 0x090F,
   Char.ofNat 0x0910, Char.ofNat 0x0913, Char.ofNat 0x0914]

/-- Source string `MATRAS = "ािीुूृेैोौ"`: the dependent vowel signs, by code point:
ा ि ी ु ू ृ े ै ो ौ. -/
def MATRAS : List Char :=
  [Char.ofNat 0x093E, Char.ofNat 0x093F, Char.ofNat 0x0940, Char.ofNat 0x0941,
   Char.ofNat 0x0942, Char.ofNat 0x0943, Char.ofNat 0x0947, Char.ofNat 0x0948,
   Char.ofNat 0x094B, Char.ofNat 0x094C]

/-- The inline literal `"आईऊएऐओऔ"` of `verses.py` line 29: the "long"
independent vowels classified as guru. -/
def LONG_VOWELS : List Char :=
  [Char.ofNat 0x0906, Char.ofNat 0x0908, Char.ofNat 0x090A, Char.ofNat 0x090F,
   Char.ofNat 0x0910, Char.ofNat 0x0913, Char.ofNat 0x0914]

/-- The inline literal `"ाीूेैोौ"` of `verses.py` line 34: the "long"
dependent vowel signs classified as guru. -/
def LONG_MATRAS : List Char :=
  [Char.ofNat 0x093E, Char.ofNat 0x0940, Char.ofNat 0x0942, Char.ofNat 0x0947,
   Char.ofNat 0x0948, Char.ofNat 0x094B, Char.ofNat 0x094C]

/-- The code points for which Python's `str.isspace()` returns `True`
(bidirectional classes WS/B/S and category Zs). -/
def PY_WHITESPACE : List Char :=
  [Char.ofNat 0x09, Char.ofNat 0x0A, Char.ofNat 0x0B, Char.ofNat 0x0C,
   Char.ofNat 0x0D, Char.ofNat 0x1C, Char.ofNat 0x1D, Char.ofNat 0x1E,
   Char.ofNat 0x1F, Char.ofNat 0x20, Char.ofNat 0x85, Char.ofNat 0xA0,
   Char.ofNat 0x1680, Char.ofNat 0x2000, Char.ofNat 0x2001, Char.ofNat 0x2002,
   Char.ofNat 0x2003, Char.ofNat 0x2004, Char.ofNat 0x2005, Char.ofNat 0x2006,
   Char.ofNat 0x2007, Char.ofNat 0x2008, Char.ofNat 0x2009, Char.ofNat 0x200A,
   Char.ofNat 0x2028, Char.ofNat 0x2029, Char.ofNat 0x202F, Char.ofNat 0x205F,
   Char.ofNat 0x3000]

/-- Python's `ch.isspace()`. -/
def isspace (c : Char) : Bool := PY_WHITESPACE.contains c

/-- The loop body of `verse_to_LG_and_syllables`, as a structural recursion:
first argument is the remaining input, second is the accumulation buffer
`current`.  Whitespace is skipped; an independent vowel or a dependent vowel
sign flushes `current ++ [ch]` as a syllable and classifies its weight from
the terminating code point alone; any other code point is absorbed into the
buffer; a buffer left over at end of input is discarded. -/
def seg : List Char → List Char → List (List Char) × List Weight
  | [], _ => ([], [])
  | ch :: rest, current =>
    if isspace ch then seg rest current
    else if VOWELS.contains ch then
      ((current ++ [ch]) :: (seg rest []).1,
       (if LONG_VOWELS.contains ch then Weight.G else Weight.L) :: (seg rest []).2)
    else if MATRAS.contains ch then
      ((current ++ [ch]) :: (seg rest []).1,
       (if LONG_MATRAS.contains ch then Weight.G else Weight.L) :: (seg rest []).2)
    else seg rest (current ++ [ch])

/-- Function `verse_to_LG_and_syllables(verse)` of `verses.py` lines 17-38: returns
the pair `(syllables, LG)`. -/
def verse_to_LG_and_syllables (verse : List Char) : List (List Char) × List Weight :=
  seg verse []

/-- Python's `round(x, d)` idealised over an ordered field with floor:
round `x` to `d` decimal digits. -/
def pyRound {α : Type} [LinearOrderedField α] [FloorRing α] (x : α) (d : ℕ) : α :=
  (round (x * 10 ^ d) : ℤ) / 10 ^ d

/-- One term of the entropy loop `entropy -= p * math.log2(p)` of
`verses.py` lines 49-51: the contribution `-p·log2 p` of one distinct symbol
`w` with empirical probability `p = count(w) / total`. -/
noncomputable def entTerm (LG : List Weight) (w : Weight) : ℝ :=
  -(((LG.count w : ℝ) / LG.length) * Real.logb 2 ((LG.count w : ℝ) / LG.length))

/-- Function `shannon_entropy(LG)` of `verses.py` lines 43-52: `0` for an empty list,
otherwise `round(-Σ p·log2 p, 3)` where the sum ranges over the values of
`Counter(LG)` (i.e. over the distinct elements, each with empirical
probability `count/total`). -/
noncomputable def shannon_entropy (LG : List Weight) : ℝ :=
  if LG.length = 0 then 0
  else pyRound ((LG.dedup.map (entTerm LG)).sum) 3

/-- The transition-count dictionary of `verses.py` lines 57-61: its four keys
`(L,L), (L,G), (G,L), (G,G)` are the four fields, always present. -/
structure TMat where
  ll : ℕ
  lg : ℕ
  gl : ℕ
  gg : ℕ
deriving DecidableEq, Repr

/-- One iteration of the loop `mat[(a,b)] += 1`. -/
def tstep (m : TMat) : Weight × Weight → TMat
  | (Weight.L, Weight.L) => { m with ll := m.ll + 1 }
  | (Weight.L, Weight.G) => { m with lg := m.lg + 1 }
  | (Weight.G, Weight.L) => { m with gl := m.gl + 1 }
  | (Weight.G, Weight.G) => { m with gg := m.gg + 1 }

/-- Function `transition_matrix(LG)` of `verses.py` lines 57-61: fold the increment
over `zip(LG, LG[1:])`, starting from the zero-initialized dictionary. -/
def transition_matrix (LG : List Weight) : TMat :=
  (LG.zip LG.tail).foldl tstep ⟨0, 0, 0, 0⟩

/-- The sum of the four entries of a transition matrix. -/
def tmSum (m : TMat) : ℕ := m.ll + m.lg + m.gl + m.gg

/-- Python's slice `l[a:b]` for `0 ≤ a ≤ b` (out-of-range-safe: clamped to
the list, never an error). -/
def pySlice {α : Type} (l : List α) (a b : ℕ) : List α := (l.drop a).take (b - a)

/-- Function `split_padas(LG, parts)` of `verses.py` lines 66-68:
`size = max(1, len(LG) // parts)` and the list
`[LG[i*size:(i+1)*size] for i in range(parts)]`. -/
def split_padas {α : Type} (LG : List α) (parts : ℕ) : List (List α) :=
  (List.range parts).map fun i =>
    pySlice LG (i * max 1 (LG.length / parts)) ((i + 1) * max 1 (LG.length / parts))

/-- One iteration of the loop `a, b = b, a + b` of `pingala_count`. -/
def pingalaStep (p : ℤ × ℤ) : ℤ × ℤ := (p.2, p.1 + p.2)

/-- Function `pingala_count(n)` of `verses.py` lines 73-81: `0` for `n ≤ 0`, `1` for
`n = 1`, otherwise start from `a, b = 1, 2` and run `a, b = b, a + b` once
for each element of `range(3, n + 1)` (that is, `n - 2` times), returning
`b`. -/
def pingala_count (n : ℤ) : ℤ :=
  if n ≤ 0 then 0
  else if n = 1 then 1
  else (pingalaStep^[(n - 2).toNat] (1, 2)).2

/-- The spec's recursive Pingala definition on naturals:
`C(0)=0, C(1)=1, C(2)=2, C(n)=C(n-1)+C(n-2)` for `n ≥ 3`.  Spec side of the
refinement claim about `pingala_count`. -/
def pingalaRecNat : ℕ → ℤ
  | 0 => 0
  | 1 => 1
  | 2 => 2
  | n + 3 => pingalaRecNat (n + 2) + pingalaRecNat (n + 1)

/-- The spec's recursive Pingala definition on integers: `C(n)=0` for
`n ≤ 0`, otherwise the recursion above. -/
def pingalaRec (n : ℤ) : ℤ := if n ≤ 0 then 0 else pingalaRecNat n.toNat

/-- Variable `lcount` of `verses.py` line 99: `Counter(LG).get('L', 0)`. -/
def lcount (LG : List Weight) : ℕ := LG.count Weight.L

/-- Variable `gcount` of `verses.py` line 100: `Counter(LG).get('G', 0)`. -/
def gcount (LG : List Weight) : ℕ := LG.count Weight.G

/-- Variable `ratio` of `verses.py` line 102: `round(gcount / total, 2) if total
else 0`. -/
def ratio (LG : List Weight) : ℚ :=
  if LG.length ≠ 0 then pyRound ((gcount LG : ℚ) / LG.length) 2 else 0

/-- Variable `heaviness` of `verses.py` lines 103-107: `"Heavy"` if `ratio > 0.5`,
else `"Balanced"` if `ratio >= 0.4`, else `"Light"`. -/
def heaviness (r : ℚ) : String :=
  if r > 0.5 then "Heavy"
  else if r ≥ 0.4 then "Balanced"
  else "Light"

/-- A code point is a syllable terminator (flushes the buffer): an
independent vowel or a dependent vowel sign. -/
def isFlush (c : Char) : Bool := VOWELS.contains c || MATRAS.contains c

/-- The whitespace-stripped input truncated just after its last syllable
terminator: drop the trailing run of non-terminator code points (everything,
when no terminator occurs). -/
def truncLast (l : List Char) : List Char :=
  (l.reverse.dropWhile (fun c => !(isFlush c))).reverse

/-! ### Helper lemmas about the segmenter -/

lemma seg_fst_length_eq_snd_length (l : List Char) :
    ∀ cur, ((seg l cur).1).length = ((seg l cur).2).length := by
  induction l with
  | nil => intro cur; simp [seg]
  | cons ch rest ih =>
    intro cur
    simp only [seg]
    split_ifs <;> simp [ih]

lemma count_L_add_count_G (w : List Weight) :
    w.count Weight.L + w.count Weight.G = w.length := by
  induction w with
  | nil => simp
  | cons a t ih => cases a <;> simp [List.count_cons, ih] <;> omega

/-! ### Helper lemmas about `pingala_count` -/

lemma pingalaStep_iterate (k : ℕ) :
    pingalaStep^[k] (1, 2) = (pingalaRecNat (k + 1), pingalaRecNat (k + 2)) := by
  induction k with
  | zero => simp [pingalaRecNat]
  | succ k ih =>
    rw [Function.iterate_succ_apply', ih]
    show (pingalaRecNat (k + 2), pingalaRecNat (k + 1) + pingalaRecNat (k + 2)) = _
    have h3 : pingalaRecNat (k + 3) = pingalaRecNat (k + 2) + pingalaRecNat (k + 1) := rfl
    rw [Prod.mk.injEq]
    exact ⟨rfl, by rw [h3, add_comm]⟩

lemma pingala_count_eq_pingalaRec (n : ℤ) : pingala_count n = pingalaRec n := by
  unfold pingala_count pingalaRec
  split_ifs with h h1
  · rfl
  · rw [h1]; rfl
  · rw [pingalaStep_iterate]
    have h2 : (n - 2).toNat + 2 = n.toNat := by omega
    rw [h2]

lemma pingalaRec_recurrence (n : ℤ) (hn : 3 ≤ n) :
    pingalaRec n = pingalaRec (n - 1) + pingalaRec (n - 2) := by
  obtain ⟨m, rfl⟩ : ∃ m : ℕ, n = (m : ℤ) + 3 := ⟨(n - 3).toNat, by omega⟩
  have e1 : ((m : ℤ) + 3).toNat = m + 3 := by omega
  have e2 : ((m : ℤ) + 3 - 1).toNat = m + 2 := by omega
  have e3 : ((m : ℤ) + 3 - 2).toNat = m + 1 := by omega
  unfold pingalaRec
  split_ifs with g1 g2 g3 <;> try omega
  rw [e1, e2, e3]
  rfl

/-! ### Helper lemmas about `transition_matrix` -/

lemma tmSum_tstep (m : TMat) (p : Weight × Weight) : tmSum (tstep m p) = tmSum m + 1 := by
  rcases p with ⟨a, b⟩
  cases a <;> cases b <;> simp [tstep, tmSum] <;> omega

lemma tmSum_foldl (l : List (Weight × Weight)) :
    ∀ m, tmSum (l.foldl tstep m) = tmSum m + l.length := by
  induction l with
  | nil => intro m; simp
  | cons p t ih =>
    intro m
    rw [List.foldl_cons, ih, tmSum_tstep]
    simp [List.length_cons]
    omega

/-! ### Claim theorems (first group) -/

/-- Claim C6: for every input verse the segmenter's two output lists have
equal length, and the count of `L` symbols plus the count of `G` symbols
equals the length of the weight list. -/
theorem claim_C6_parallel_lengths (verse : List Char) :
    (verse_to_LG_and_syllables verse).1.length = (verse_to_LG_and_syllables verse).2.length ∧
    lcount (verse_to_LG_and_syllables verse).2 + gcount (verse_to_LG_and_syllables verse).2 =
      (verse_to_LG_and_syllables verse).2.length := by
  refine ⟨seg_fst_length_eq_snd_length verse [], ?_⟩
  exact count_L_add_count_G _

/-- Claim C4: `pingala_count` is total on all integers and satisfies the
recurrence `C(n) = 0` for `n ≤ 0`, `C(1) = 1`, `C(2) = 2`,
`C(n) = C(n-1) + C(n-2)` for `n ≥ 3`; it takes the stated concrete values,
and the iterative implementation equals the recursive spec definition
`pingalaRec`. -/
theorem claim_C4_pingala_count :
    (∀ n : ℤ, n ≤ 0 → pingala_count n = 0) ∧
    pingala_count 1 = 1 ∧ pingala_count 2 = 2 ∧
    (∀ n : ℤ, 3 ≤ n → pingala_count n = pingala_count (n - 1) + pingala_count (n - 2)) ∧
    pingala_count 3 = 3 ∧ pingala_count 5 = 8 ∧ pingala_count 0 = 0 ∧
    pingala_count (-3) = 0 ∧
    (∀ n : ℤ, pingala_count n = pingalaRec n) := by
  refine ⟨?_, by decide, by decide, ?_, by decide, by decide, by decide, by decide,
    pingala_count_eq_pingalaRec⟩
  · intro n hn
    unfold pingala_count
    simp [hn]
  · intro n hn
    rw [pingala_count_eq_pingalaRec, pingala_count_eq_pingalaRec,
      pingala_count_eq_pingalaRec]
    exact pingalaRec_recurrence n hn

/-- Witness for C4: the recurrence instantiated at `n = 5` and the `n ≤ 0`
branch instantiated at `n = -3`. -/
theorem claim_C4_pingala_count_witness :
    pingala_count 5 = pingala_count 4 + pingala_count 3 ∧ pingala_count (-3) = 0 :=
  ⟨claim_C4_pingala_count.2.2.2.1 5 (by norm_num),
   claim_C4_pingala_count.1 (-3) (by norm_num)⟩

/-- Claim C5: for every weight sequence and positive `parts`, `split_padas`
uses `size = max 1 (len / parts)` and returns exactly `parts` contiguous
slices `[i*size : (i+1)*size]`; a slice whose start is at or beyond the end
of the sequence is empty; with `parts = 4` on a sequence of length 2 the
slice lengths are `[1, 1, 0, 0]`. -/
theorem claim_C5_split_padas :
    (∀ (LG : List Weight) (parts : ℕ), 0 < parts →
      (split_padas LG parts).length = parts ∧
      (∀ i : ℕ, i < parts →
        (split_padas LG parts).get? i =
          some (pySlice LG (i * max 1 (LG.length / parts))
            ((i + 1) * max 1 (LG.length / parts)))) ∧
      (∀ i : ℕ, i < parts → LG.length ≤ i * max 1 (LG.length / parts) →
        (split_padas LG parts).get? i = some [])) ∧
    (split_padas [Weight.L, Weight.L] 4).map List.length = [1, 1, 0, 0] := by
  constructor
  · intro LG parts _
    refine ⟨by simp [split_padas], ?_, ?_⟩
    · intro i hi
      simp [split_padas, List.get?_map, List.get?_range, hi]
    · intro i hi hstart
      simp [split_padas, List.get?_map, List.get?_range, hi, pySlice,
        List.drop_eq_nil_of_le hstart]
  · decide

/-- Witness for C5: the general part instantiated at the length-2 sequence
with `parts = 4`. -/
theorem claim_C5_split_padas_witness :
    (split_padas [Weight.L, Weight.L] 4).length = 4 ∧
    (split_padas [Weight.L, Weight.L] 4).get? 2 = some [] :=
  ⟨(claim_C5_split_padas.1 [Weight.L, Weight.L] 4 (by norm_num)).1,
   (claim_C5_split_padas.1 [Weight.L, Weight.L] 4 (by norm_num)).2.2 2 (by norm_num)
     (by norm_num)⟩

/-- Claim C7: the transition matrix always has exactly the four entries
`(L,L), (L,G), (G,L), (G,G)` (zero-initialized even when a pair never
occurs, as on a one-element list), and the sum of the four entries equals
`max 0 (len - 1)`. -/
theorem claim_C7_transition_matrix :
    (∀ LG : List Weight,
      (tmSum (transition_matrix LG) : ℤ) = max 0 ((LG.length : ℤ) - 1)) ∧
    transition_matrix [Weight.G] = ⟨0, 0, 0, 0⟩ ∧
    transition_matrix [] = ⟨0, 0, 0, 0⟩ := by
  refine ⟨?_, by decide, by decide⟩
  intro LG
  unfold transition_matrix
  rw [tmSum_foldl]
  have hz : (LG.zip LG.tail).length = min LG.length LG.tail.length :=
    List.length_zip LG LG.tail
  have ht : LG.tail.length = LG.length - 1 := List.length_tail LG
  have h0 : tmSum ⟨0, 0, 0, 0⟩ = 0 := rfl
  rw [h0, hz, ht]
  omega

/-- Claim C8: `heaviness` labels a ratio `"Heavy"` exactly when it exceeds
1/2, `"Balanced"` exactly when it lies in `[2/5, 1/2]`, and `"Light"`
exactly when it is below 2/5 — a partition with no gap or overlap. -/
theorem claim_C8_heaviness (r : ℚ) :
    (heaviness r = "Heavy" ↔ 1 / 2 < r) ∧
    (heaviness r = "Balanced" ↔ 2 / 5 ≤ r ∧ r ≤ 1 / 2) ∧
    (heaviness r = "Light" ↔ r < 2 / 5) := by
  have hHB : ("Heavy" : String) ≠ "Balanced" := by decide
  have hHL : ("Heavy" : String) ≠ "Light" := by decide
  have hBH : ("Balanced" : String) ≠ "Heavy" := by decide
  have hBL : ("Balanced" : String) ≠ "Light" := by decide
  have hLH : ("Light" : String) ≠ "Heavy" := by decide
  have hLB : ("Light" : String) ≠ "Balanced" := by decide
  unfold heaviness
  have e5 : (0.5 : ℚ) = 1 / 2 := by norm_num
  have e4 : (0.4 : ℚ) = 2 / 5 := by norm_num
  rw [e5, e4]
  split_ifs with h1 h2
  · exact ⟨iff_of_true rfl h1,
      iff_of_false hHB (fun hc => absurd h1 (not_lt.mpr hc.2)),
      iff_of_false hHL (by linarith)⟩
  · exact ⟨iff_of_false hBH (by exact h1),
      iff_of_true rfl ⟨h2, not_lt.mp h1⟩,
      iff_of_false hBL (by linarith)⟩
  · exact ⟨iff_of_false hLH (by exact h1),
      iff_of_false hLB (fun hc => absurd hc.1 (by linarith)),
      iff_of_true rfl (by linarith [not_le.mp h2])⟩

/-! ### Character-class disjointness facts -/

lemma vowel_not_space {c : Char} (h : VOWELS.contains c = true) : isspace c = false := by
  have h' : c ∈ VOWELS := by simpa using h
  fin_cases h' <;> decide

lemma matra_not_space {c : Char} (h : MATRAS.contains c = true) : isspace c = false := by
  have h' : c ∈ MATRAS := by simpa using h
  fin_cases h' <;> decide

lemma matra_not_vowel {c : Char} (h : MATRAS.contains c = true) :
    VOWELS.contains c = false := by
  have h' : c ∈ MATRAS := by simpa using h
  fin_cases h' <;> decide

lemma long_vowel_is_vowel {c : Char} (h : LONG_VOWELS.contains c = true) :
    VOWELS.contains c = true := by
  have h' : c ∈ LONG_VOWELS := by simpa using h
  fin_cases h' <;> decide

lemma space_not_flush {c : Char} (h : isspace c = true) : isFlush c = false := by
  have h' : c ∈ PY_WHITESPACE := by simpa [isspace] using h
  fin_cases h' <;> decide

/-! ### Claim theorems (second group) -/

/-- Claim C1: the segmenter scans code points in order, skips whitespace,
flushes the buffer exactly when it meets an independent vowel or a dependent
vowel sign, weights the flushed syllable `G` exactly when the terminating
code point is in the corresponding "long" set and `L` otherwise, absorbs
every other code point, and maps a single long independent vowel to one
syllable equal to that code point with weight `G`. -/
theorem claim_C1_segmenter_steps (ch : Char) (rest cur : List Char) :
    (isspace ch = true → seg (ch :: rest) cur = seg rest cur) ∧
    (VOWELS.contains ch = true →
      seg (ch :: rest) cur =
        ((cur ++ [ch]) :: (seg rest []).1,
         (if LONG_VOWELS.contains ch then Weight.G else Weight.L) :: (seg rest []).2)) ∧
    (MATRAS.contains ch = true →
      seg (ch :: rest) cur =
        ((cur ++ [ch]) :: (seg rest []).1,
         (if LONG_MATRAS.contains ch then Weight.G else Weight.L) :: (seg rest []).2)) ∧
    (isspace ch = false → VOWELS.contains ch = false → MATRAS.contains ch = false →
      seg (ch :: rest) cur = seg rest (cur ++ [ch])) ∧
    (∀ v : Char, LONG_VOWELS.contains v = true →
      verse_to_LG_and_syllables [v] = ([[v]], [Weight.G])) := by
  refine ⟨?_, ?_, ?_, ?_, ?_⟩
  · intro h
    simp only [seg, h, if_true]
  · intro h
    have hs := vowel_not_space h
    simp only [seg, hs, h, Bool.false_eq_true, if_false, if_true]
  · intro h
    have hs := matra_not_space h
    have hv := matra_not_vowel h
    simp only [seg, hs, hv, h, Bool.false_eq_true, if_false, if_true]
  · intro h1 h2 h3
    simp only [seg, h1, h2, h3, Bool.false_eq_true, if_false]
  · intro v hv
    have hvv := long_vowel_is_vowel hv
    have hs := vowel_not_space hvv
    unfold verse_to_LG_and_syllables
    simp only [seg, hs, hvv, hv, Bool.false_eq_true, if_false, if_true]
    rfl

/-- Witness for C1: the flush step and the long-vowel scenario instantiated
at the long independent vowel आ (U+0906). -/
theorem claim_C1_segmenter_steps_witness :
    seg [Char.ofNat 0x0906] [] =
      (([] ++ [Char.ofNat 0x0906]) :: (seg [] []).1,
       (if LONG_VOWELS.contains (Char.ofNat 0x0906) then Weight.G else Weight.L) ::
         (seg [] []).2) ∧
    verse_to_LG_and_syllables [Char.ofNat 0x0906] = ([[Char.ofNat 0x0906]], [Weight.G]) :=
  ⟨(claim_C1_segmenter_steps (Char.ofNat 0x0906) [] []).2.1 (by decide),
   (claim_C1_segmenter_steps (Char.ofNat 0x0906) [] []).2.2.2.2 (Char.ofNat 0x0906)
     (by decide)⟩

/-- Witness for C8: the partition instantiated at the ratio `9/20`, which
is labelled `"Balanced"`. -/
theorem claim_C8_heaviness_witness : heaviness (9 / 20) = "Balanced" :=
  ((claim_C8_heaviness (9 / 20)).2.1).mpr ⟨by norm_num, by norm_num⟩

/-- Claim C2 as stated is false: the code rounds the quotient to two decimal
digits, so on `[G, L, L]` the ratio is `0.33`, not `1/3`. -/
theorem claim_C2_counterexample :
    ratio [Weight.G, Weight.L, Weight.L] ≠
      (gcount [Weight.G, Weight.L, Weight.L] : ℚ) /
        (([Weight.G, Weight.L, Weight.L] : List Weight).length : ℚ) := by
  have hne : (Weight.L = Weight.G) = False := eq_false (by decide)
  unfold ratio pyRound gcount
  norm_num [List.count_cons, round_eq, hne]

/-- Claim C2, amended: the ratio is `0` on the empty sequence, and on a
non-empty sequence it is `guru_count / total` rounded to two decimal digits
(hence within `1/200` of the exact quotient). -/
theorem claim_C2_ratio (LG : List Weight) :
    (LG = [] → ratio LG = 0) ∧
    (LG ≠ [] →
      ratio LG = pyRound ((gcount LG : ℚ) / (LG.length : ℚ)) 2 ∧
      |ratio LG - (gcount LG : ℚ) / (LG.length : ℚ)| ≤ 1 / 200) := by
  constructor
  · intro h
    simp [ratio, h]
  · intro h
    have hlen : LG.length ≠ 0 := by simpa [List.length_eq_zero] using h
    have hdef : ratio LG = pyRound ((gcount LG : ℚ) / (LG.length : ℚ)) 2 := by
      simp [ratio, hlen]
    refine ⟨hdef, ?_⟩
    rw [hdef]
    set q : ℚ := (gcount LG : ℚ) / (LG.length : ℚ) with hq
    have habs : |q * 100 - (round (q * 100) : ℚ)| ≤ 1 / 2 := abs_sub_round (q * 100)
    have h100 : pyRound q 2 - q = ((round (q * 100) : ℚ) - q * 100) / 100 := by
      unfold pyRound
      rw [show (10 : ℚ) ^ 2 = 100 by norm_num]
      ring
    rw [h100, abs_div]
    rw [abs_sub_comm] at habs
    have : |(100 : ℚ)| = 100 := by norm_num
    rw [this]
    linarith

/-- Witness for C2: the amended statement instantiated at the one-element
sequence `[G]`, where the ratio is exactly `1`. -/
theorem claim_C2_ratio_witness :
    ratio [Weight.G] = pyRound ((gcount [Weight.G] : ℚ) /
      (([Weight.G] : List Weight).length : ℚ)) 2 ∧
    |ratio [Weight.G] - (gcount [Weight.G] : ℚ) /
      (([Weight.G] : List Weight).length : ℚ)| ≤ 1 / 200 :=
  (claim_C2_ratio [Weight.G]).2 (by decide)

/-! ### Helper lemmas for the trailing-buffer claims -/

lemma seg_no_flush :
    ∀ (tail cur : List Char), (∀ ch ∈ tail, isFlush ch = false) → seg tail cur = ([], []) := by
  intro tail
  induction tail with
  | nil => intro cur _; rfl
  | cons ch rest ih =>
    intro cur h
    have hch : isFlush ch = false := h ch (by simp)
    have hv : VOWELS.contains ch = false := by
      revert hch; unfold isFlush; cases VOWELS.contains ch <;> simp
    have hm : MATRAS.contains ch = false := by
      revert hch; unfold isFlush; cases MATRAS.contains ch <;> simp
    have hrest : ∀ c ∈ rest, isFlush c = false := fun c hc => h c (by simp [hc])
    simp only [seg, hv, hm, Bool.false_eq_true, if_false]
    split_ifs with hs
    · exact ih cur hrest
    · exact ih (cur ++ [ch]) hrest

lemma seg_append_no_flush (tail : List Char) (h : ∀ ch ∈ tail, isFlush ch = false) :
    ∀ (l cur : List Char), seg (l ++ tail) cur = seg l cur := by
  intro l
  induction l with
  | nil =>
    intro cur
    rw [List.nil_append, seg_no_flush tail cur h]
    rfl
  | cons ch rest ih =>
    intro cur
    simp only [List.cons_append, seg]
    split_ifs <;> simp [ih]

/-- Claim C9: a trailing buffer that never meets an independent vowel or a
dependent vowel sign before the input ends is silently discarded — appending
such a tail changes nothing, a verse made only of such code points yields no
syllable and no weight at all, and in particular a single bare consonant
(क, U+0915) yields `([], [])`. -/
theorem claim_C9_trailing_buffer_discarded :
    (∀ (pre tail : List Char), (∀ ch ∈ tail, isFlush ch = false) →
      verse_to_LG_and_syllables (pre ++ tail) = verse_to_LG_and_syllables pre) ∧
    (∀ (tail cur : List Char), (∀ ch ∈ tail, isFlush ch = false) →
      seg tail cur = ([], [])) ∧
    verse_to_LG_and_syllables [Char.ofNat 0x0915] = ([], []) := by
  refine ⟨?_, seg_no_flush, by decide⟩
  intro pre tail h
  exact seg_append_no_flush tail h pre []

/-- Witness for C9: discarding instantiated at the empty verse followed by
the bare consonant क. -/
theorem claim_C9_trailing_buffer_discarded_witness :
    verse_to_LG_and_syllables ([] ++ [Char.ofNat 0x0915]) =
      verse_to_LG_and_syllables [] :=
  claim_C9_trailing_buffer_discarded.1 [] [Char.ofNat 0x0915] (by decide)

/-! ### Helper lemmas for the syllable-concatenation claim -/

lemma any_isFlush_filter (l : List Char) :
    (l.filter (fun c => !(isspace c))).any isFlush = l.any isFlush := by
  induction l with
  | nil => rfl
  | cons ch rest ih =>
    by_cases hs : isspace ch = true
    · have hf : isFlush ch = false := space_not_flush hs
      simp [List.filter_cons, hs, ih, hf]
    · simp only [Bool.not_eq_true] at hs
      simp [List.filter_cons, hs, ih]


lemma isFlush_false_components {ch : Char} (h : isFlush ch = false) :
    VOWELS.contains ch = false ∧ MATRAS.contains ch = false := by
  revert h
  unfold isFlush
  cases VOWELS.contains ch <;> cases MATRAS.contains ch <;> simp

lemma seg_space_step {ch : Char} (hs : isspace ch = true) (rest cur : List Char) :
    seg (ch :: rest) cur = seg rest cur := by
  simp only [seg, hs, if_true]

lemma seg_vowel_step {ch : Char} (hv : VOWELS.contains ch = true) (rest cur : List Char) :
    seg (ch :: rest) cur =
      ((cur ++ [ch]) :: (seg rest []).1,
       (if LONG_VOWELS.contains ch then Weight.G else Weight.L) :: (seg rest []).2) := by
  have hs := vowel_not_space hv
  simp only [seg, hs, hv, Bool.false_eq_true, if_false, if_true]

lemma seg_matra_step {ch : Char} (hv : VOWELS.contains ch = false)
    (hm : MATRAS.contains ch = true) (rest cur : List Char) :
    seg (ch :: rest) cur =
      ((cur ++ [ch]) :: (seg rest []).1,
       (if LONG_MATRAS.contains ch then Weight.G else Weight.L) :: (seg rest []).2) := by
  have hs := matra_not_space hm
  simp only [seg, hs, hv, hm, Bool.false_eq_true, if_false, if_true]

lemma seg_absorb_step {ch : Char} (hs : isspace ch = false) (hv : VOWELS.contains ch = false)
    (hm : MATRAS.contains ch = false) (rest cur : List Char) :
    seg (ch :: rest) cur = seg rest (cur ++ [ch]) := by
  simp only [seg, hs, hv, hm, Bool.false_eq_true, if_false]

lemma truncLast_cons (ch : Char) (t : List Char) :
    truncLast (ch :: t) =
      if t.any isFlush = true then ch :: truncLast t
      else if isFlush ch = true then [ch] else [] := by
  unfold truncLast
  rw [List.reverse_cons, List.dropWhile_append]
  by_cases h : t.any isFlush = true
  · have hne : List.dropWhile (fun c => !(isFlush c)) t.reverse ≠ [] := by
      rw [Ne, List.dropWhile_eq_nil_iff]
      intro hall
      rcases List.any_eq_true.mp h with ⟨x, hx, hfx⟩
      have := hall x (List.mem_reverse.mpr hx)
      simp [hfx] at this
    have hE : (List.dropWhile (fun c => !(isFlush c)) t.reverse).isEmpty = false := by
      cases hE0 : (List.dropWhile (fun c => !(isFlush c)) t.reverse).isEmpty
      · rfl
      · exact absurd (List.isEmpty_iff.mp hE0) hne
    rw [hE, if_pos h]
    simp
  · have hnil : List.dropWhile (fun c => !(isFlush c)) t.reverse = [] := by
      rw [List.dropWhile_eq_nil_iff]
      intro x hx
      cases hb : isFlush x
      · simp
      · exact absurd (List.any_eq_true.mpr ⟨x, List.mem_reverse.mp hx, hb⟩) h
    rw [hnil, if_neg h]
    cases hc : isFlush ch
    · simp [List.dropWhile_cons, hc]
    · simp [List.dropWhile_cons, hc]

lemma seg_flatten (l : List Char) :
    ∀ cur, ((seg l cur).1).flatten =
      if l.any isFlush = true then cur ++ truncLast (l.filter (fun c => !(isspace c)))
      else [] := by
  induction l with
  | nil => intro cur; simp [seg]
  | cons ch rest ih =>
    intro cur
    by_cases hs : isspace ch = true
    · have hf : isFlush ch = false := space_not_flush hs
      rw [seg_space_step hs, ih cur]
      have hany : (ch :: rest).any isFlush = rest.any isFlush := by
        simp [List.any_cons, hf]
      have hfil : (ch :: rest).filter (fun c => !(isspace c)) =
          rest.filter (fun c => !(isspace c)) := by
        simp [List.filter_cons, hs]
      rw [hany, hfil]
    · have hs' : isspace ch = false := by
        cases hx : isspace ch
        · rfl
        · exact absurd hx hs
      have hfil : (ch :: rest).filter (fun c => !(isspace c)) =
          ch :: rest.filter (fun c => !(isspace c)) := by
        simp [List.filter_cons, hs']
      by_cases hfl : isFlush ch = true
      · have hvm : VOWELS.contains ch = true ∨
            (VOWELS.contains ch = false ∧ MATRAS.contains ch = true) := by
          revert hfl; unfold isFlush
          cases VOWELS.contains ch <;> cases MATRAS.contains ch <;> simp
        have hstep : ((seg (ch :: rest) cur).1) = (cur ++ [ch]) :: (seg rest []).1 := by
          rcases hvm with hv | ⟨hv, hm⟩
          · rw [seg_vowel_step hv]
          · rw [seg_matra_step hv hm]
        have hany : (ch :: rest).any isFlush = true := by simp [List.any_cons, hfl]
        rw [hstep, List.flatten_cons, ih [], hfil, truncLast_cons, any_isFlush_filter,
          hany]
        by_cases hr : rest.any isFlush = true
        · simp [hr]
        · simp [hr, hfl]
      · have hflf : isFlush ch = false := by
          cases hx : isFlush ch
          · rfl
          · exact absurd hx hfl
        obtain ⟨hv, hm⟩ := isFlush_false_components hflf
        rw [seg_absorb_step hs' hv hm, ih (cur ++ [ch]), hfil, truncLast_cons,
          any_isFlush_filter]
        have hany : (ch :: rest).any isFlush = rest.any isFlush := by
          simp [List.any_cons, hflf]
        rw [hany]
        by_cases hr : rest.any isFlush = true
        · simp [hr]
        · simp [hr, hflf]

/-- Claim C10: the concatenation of the output syllables, in order, equals
the input verse with all whitespace code points removed and then truncated
just after its last independent-vowel or dependent-vowel-sign code point
(`truncLast` drops the trailing run of non-terminator code points, and drops
everything when no terminator occurs). -/
theorem claim_C10_syllable_concat (verse : List Char) :
    ((verse_to_LG_and_syllables verse).1).flatten =
      truncLast (verse.filter (fun c => !(isspace c))) := by
  unfold verse_to_LG_and_syllables
  rw [seg_flatten]
  by_cases h : verse.any isFlush = true
  · rw [if_pos h]
    simp
  · rw [if_neg h]
    have hall : ∀ x ∈ (verse.filter (fun c => !(isspace c))).reverse,
        (!(isFlush x)) = true := by
      intro x hx
      have hxm : x ∈ verse := List.mem_of_mem_filter (List.mem_reverse.mp hx)
      cases hb : isFlush x
      · simp
      · exact absurd (List.any_eq_true.mpr ⟨x, hxm, hb⟩) h
    unfold truncLast
    rw [List.dropWhile_eq_nil_iff.mpr hall]
    rfl

/-! ### Helper lemmas for the entropy claim -/

lemma dedup_replicate_succ (m : ℕ) (a : Weight) :
    (List.replicate (m + 1) a).dedup = [a] := by
  induction m with
  | zero => simp
  | succ k ih =>
    rw [List.replicate_succ, List.dedup_cons_of_mem (by simp [List.mem_replicate]), ih]

lemma nodup_weight_cases (d : List Weight) (hd : d.Nodup) :
    d = [] ∨ d = [Weight.L] ∨ d = [Weight.G] ∨
    d = [Weight.L, Weight.G] ∨ d = [Weight.G, Weight.L] := by
  rcases d with _ | ⟨a, _ | ⟨b, _ | ⟨c, t⟩⟩⟩
  · exact Or.inl rfl
  · cases a <;> simp
  · simp only [List.nodup_cons, List.mem_cons] at hd
    cases a <;> cases b <;> simp_all
  · simp only [List.nodup_cons, List.mem_cons] at hd
    cases a <;> cases b <;> cases c <;> simp_all

lemma pyRound_unit {x : ℝ} (h0 : 0 ≤ x) (h1 : x ≤ 1) :
    0 ≤ pyRound x 3 ∧ pyRound x 3 ≤ 1 := by
  unfold pyRound
  rw [show (10 : ℝ) ^ 3 = 1000 by norm_num]
  have hm0 : (0 : ℤ) ≤ round (x * 1000) := by
    have h := Int.floor_le_floor (α := ℝ) (show (0 : ℝ) + 1 / 2 ≤ x * 1000 + 1 / 2 by linarith)
    rw [← round_eq, ← round_eq] at h
    simpa using h
  have hm1 : round (x * 1000) ≤ 1000 := by
    have h := Int.floor_le_floor (α := ℝ) (show x * 1000 + 1 / 2 ≤ (1000 : ℝ) + 1 / 2 by linarith)
    rw [← round_eq, ← round_eq] at h
    have h1000 : round ((1000 : ℝ)) = 1000 := by
      norm_num [round_eq]
    rw [h1000] at h
    exact h
  constructor
  · exact div_nonneg (by exact_mod_cast hm0) (by norm_num)
  · rw [div_le_one (by norm_num)]
    exact_mod_cast hm1

lemma pyRound_zero : pyRound (0 : ℝ) 3 = 0 := by
  unfold pyRound
  simp

lemma entTerm_of_count_eq_length {l : List Weight} {w : Weight} (hN : l.length ≠ 0)
    (hc : l.count w = l.length) : entTerm l w = 0 := by
  unfold entTerm
  rw [hc, div_self (by exact_mod_cast hN)]
  simp

lemma entTerm_mixed_sum {l : List Weight} (hL : Weight.L ∈ l) (hG : Weight.G ∈ l) :
    0 ≤ entTerm l Weight.L + entTerm l Weight.G ∧
    entTerm l Weight.L + entTerm l Weight.G ≤ 1 := by
  have hN : l.length ≠ 0 := by
    intro h
    rw [List.length_eq_zero] at h
    subst h
    simp at hL
  have hNpos : (0 : ℝ) < l.length := by
    exact_mod_cast Nat.pos_of_ne_zero hN
  set p : ℝ := (l.count Weight.L : ℝ) / l.length with hp_def
  set q : ℝ := (l.count Weight.G : ℝ) / l.length with hq_def
  have hp : 0 < p := by
    apply div_pos _ hNpos
    exact_mod_cast List.count_pos_iff.mpr hL
  have hq : 0 < q := by
    apply div_pos _ hNpos
    exact_mod_cast List.count_pos_iff.mpr hG
  have hpq : p + q = 1 := by
    rw [hp_def, hq_def, div_add_div_same, div_eq_one_iff_eq (ne_of_gt hNpos)]
    exact_mod_cast count_L_add_count_G l
  have hq_eq : q = 1 - p := by linarith
  have hp1 : p ≤ 1 := by linarith
  have hsum : entTerm l Weight.L + entTerm l Weight.G = Real.binEntropy p / Real.log 2 := by
    unfold entTerm
    rw [← hp_def, ← hq_def, hq_eq]
    unfold Real.binEntropy
    rw [Real.log_inv, Real.log_inv]
    have hlogb : ∀ y : ℝ, Real.logb 2 y = Real.log y / Real.log 2 := fun y => rfl
    rw [hlogb, hlogb]
    field_simp
    ring
  rw [hsum]
  have hlog2 : 0 < Real.log 2 := Real.log_pos one_lt_two
  constructor
  · exact div_nonneg (Real.binEntropy_nonneg hp.le hp1) hlog2.le
  · rw [div_le_one hlog2]
    exact Real.binEntropy_le_log_two

lemma sum_entTerm_unit {l : List Weight} (hl : l ≠ []) :
    0 ≤ (l.dedup.map (entTerm l)).sum ∧ (l.dedup.map (entTerm l)).sum ≤ 1 := by
  have hN : l.length ≠ 0 := by simpa [List.length_eq_zero] using hl
  rcases nodup_weight_cases l.dedup (List.nodup_dedup l) with h | h | h | h | h
  · exact absurd ((List.dedup_eq_nil _).mp h) hl
  · have hall : ∀ b ∈ l, Weight.L = b := by
      intro b hb
      have hbd : b ∈ l.dedup := List.mem_dedup.mpr hb
      rw [h] at hbd
      simp at hbd
      rw [hbd]
    have hc : l.count Weight.L = l.length := List.count_eq_length.mpr hall
    rw [h]
    simp [entTerm_of_count_eq_length hN hc]
  · have hall : ∀ b ∈ l, Weight.G = b := by
      intro b hb
      have hbd : b ∈ l.dedup := List.mem_dedup.mpr hb
      rw [h] at hbd
      simp at hbd
      rw [hbd]
    have hc : l.count Weight.G = l.length := List.count_eq_length.mpr hall
    rw [h]
    simp [entTerm_of_count_eq_length hN hc]
  · have hL : Weight.L ∈ l := List.mem_dedup.mp (by rw [h]; simp)
    have hG : Weight.G ∈ l := List.mem_dedup.mp (by rw [h]; simp)
    rw [h]
    simpa using entTerm_mixed_sum hL hG
  · have hL : Weight.L ∈ l := List.mem_dedup.mp (by rw [h]; simp)
    have hG : Weight.G ∈ l := List.mem_dedup.mp (by rw [h]; simp)
    rw [h]
    have := entTerm_mixed_sum hL hG
    constructor
    · simpa [add_comm] using this.1
    · simpa [add_comm] using this.2

/-- Claim C3, amended: for a non-empty weight sequence the entropy result
lies in `[0, 1]`; the result is `0` when the sequence is empty or contains
only one distinct symbol value.  (The converse of the zero case — the
claim's "iff" — is false: rounding to 3 decimal digits sends some
non-homogeneous sequences to `0` as well, see the counterexample.) -/
theorem claim_C3_entropy (LG : List Weight) :
    (LG ≠ [] → 0 ≤ shannon_entropy LG ∧ shannon_entropy LG ≤ 1) ∧
    ((LG = [] ∨ LG.dedup.length = 1) → shannon_entropy LG = 0) := by
  constructor
  · intro hl
    have hN : LG.length ≠ 0 := by simpa [List.length_eq_zero] using hl
    have hb := sum_entTerm_unit hl
    unfold shannon_entropy
    rw [if_neg hN]
    exact pyRound_unit hb.1 hb.2
  · intro h
    rcases h with h | h
    · subst h
      simp [shannon_entropy]
    · have hl : LG ≠ [] := by
        intro he
        subst he
        simp at h
      have hN : LG.length ≠ 0 := by simpa [List.length_eq_zero] using hl
      unfold shannon_entropy
      rw [if_neg hN]
      rcases nodup_weight_cases LG.dedup (List.nodup_dedup LG) with hd | hd | hd | hd | hd
      · exact absurd ((List.dedup_eq_nil _).mp hd) hl
      · have hall : ∀ b ∈ LG, Weight.L = b := by
          intro b hb
          have hbd : b ∈ LG.dedup := List.mem_dedup.mpr hb
          rw [hd] at hbd
          simp at hbd
          rw [hbd]
        have hc : LG.count Weight.L = LG.length := List.count_eq_length.mpr hall
        rw [hd]
        simp [entTerm_of_count_eq_length hN hc, pyRound_zero]
      · have hall : ∀ b ∈ LG, Weight.G = b := by
          intro b hb
          have hbd : b ∈ LG.dedup := List.mem_dedup.mpr hb
          rw [hd] at hbd
          simp at hbd
          rw [hbd]
        have hc : LG.count Weight.G = LG.length := List.count_eq_length.mpr hall
        rw [hd]
        simp [entTerm_of_count_eq_length hN hc, pyRound_zero]
      · rw [hd] at h
        simp at h
      · rw [hd] at h
        simp at h

/-- Witness for C3: the amended statement instantiated at the homogeneous
one-element sequence `[G]`. -/
theorem claim_C3_entropy_witness :
    (0 ≤ shannon_entropy [Weight.G] ∧ shannon_entropy [Weight.G] ≤ 1) ∧
    shannon_entropy [Weight.G] = 0 :=
  ⟨(claim_C3_entropy [Weight.G]).1 (by simp),
   (claim_C3_entropy [Weight.G]).2 (Or.inr (by simp))⟩

lemma cex_len : (Weight.L :: List.replicate 65535 Weight.G).length = 65536 := by
  rw [List.length_cons, List.length_replicate]

lemma cex_dedup :
    (Weight.L :: List.replicate 65535 Weight.G).dedup = [Weight.L, Weight.G] := by
  rw [List.dedup_cons_of_not_mem (fun hm => absurd (List.mem_replicate.mp hm).2 (by decide)),
    dedup_replicate_succ 65534 Weight.G]

lemma cex_countL : (Weight.L :: List.replicate 65535 Weight.G).count Weight.L = 1 := by
  rw [List.count_cons, List.count_replicate]
  decide

lemma cex_countG : (Weight.L :: List.replicate 65535 Weight.G).count Weight.G = 65535 := by
  rw [List.count_cons, List.count_replicate]
  decide

lemma cex_entL : entTerm (Weight.L :: List.replicate 65535 Weight.G) Weight.L = 1 / 4096 := by
  unfold entTerm
  rw [cex_countL, cex_len]
  push_cast
  rw [show ((1 : ℝ) / 65536) = ((65536 : ℝ))⁻¹ by norm_num, Real.logb_inv,
    show (65536 : ℝ) = 2 ^ (16 : ℕ) by norm_num, Real.logb_pow]
  simp [Real.logb_self_eq_one]
  norm_num

lemma cex_entG_nonneg : 0 ≤ entTerm (Weight.L :: List.replicate 65535 Weight.G) Weight.G := by
  unfold entTerm
  rw [cex_countG, cex_len]
  push_cast
  have hp0 : (0 : ℝ) ≤ 65535 / 65536 := by norm_num
  have hp1 : (65535 : ℝ) / 65536 ≤ 1 := by norm_num
  have hlb : Real.logb 2 ((65535 : ℝ) / 65536) ≤ 0 :=
    Real.logb_nonpos one_lt_two hp0 hp1
  nlinarith

lemma cex_entG_le :
    entTerm (Weight.L :: List.replicate 65535 Weight.G) Weight.G ≤ 2 / 65535 := by
  unfold entTerm
  rw [cex_countG, cex_len]
  push_cast
  have hinv : ((65535 : ℝ) / 65536)⁻¹ = 65536 / 65535 := by norm_num
  have hneg : -Real.logb 2 ((65535 : ℝ) / 65536) = Real.logb 2 ((65536 : ℝ) / 65535) := by
    rw [← Real.logb_inv, hinv]
  have hlog_le : Real.log ((65536 : ℝ) / 65535) ≤ 1 / 65535 := by
    have h := Real.log_le_sub_one_of_pos (show (0 : ℝ) < 65536 / 65535 by norm_num)
    have h2 : (65536 : ℝ) / 65535 - 1 = 1 / 65535 := by norm_num
    linarith
  have hlog2 : (1 : ℝ) / 2 < Real.log 2 := by
    have := Real.log_two_gt_d9
    linarith
  have hlog_nn : 0 ≤ Real.log ((65536 : ℝ) / 65535) := Real.log_nonneg (by norm_num)
  have hlogb_le : Real.logb 2 ((65536 : ℝ) / 65535) ≤ 2 / 65535 := by
    show Real.log ((65536 : ℝ) / 65535) / Real.log 2 ≤ 2 / 65535
    rw [div_le_iff₀ (by linarith)]
    nlinarith
  have hlogb_nonneg : 0 ≤ Real.logb 2 ((65536 : ℝ) / 65535) := by
    show 0 ≤ Real.log ((65536 : ℝ) / 65535) / Real.log 2
    positivity
  nlinarith [hneg, hlogb_le, hlogb_nonneg]

lemma round_of_small_entropy (g : ℝ) (h0 : 0 ≤ g) (h1 : g ≤ 2 / 65535) :
    round (((1 : ℝ) / 4096 + g) * 1000) = 0 := by
  rw [round_eq_zero_iff, Set.mem_Ico]
  constructor
  · nlinarith
  · nlinarith

/-- Claim C3's "equals 0 iff empty or homogeneous" is false as stated: the
sequence of one `L` followed by 65535 `G`s contains two distinct symbol
values, yet its entropy (about `0.000275` bits before rounding) rounds to
`0` at 3 decimal digits. -/
theorem claim_C3_entropy_counterexample :
    shannon_entropy (Weight.L :: List.replicate 65535 Weight.G) = 0 ∧
    (Weight.L :: List.replicate 65535 Weight.G).dedup.length = 2 ∧
    Weight.L :: List.replicate 65535 Weight.G ≠ [] := by
  refine ⟨?_, by rw [cex_dedup]; rfl, List.cons_ne_nil _ _⟩
  unfold shannon_entropy
  rw [if_neg (by rw [cex_len]; norm_num), cex_dedup]
  simp only [List.map_cons, List.map_nil, List.sum_cons, List.sum_nil, add_zero]
  rw [cex_entL]
  unfold pyRound
  rw [show (10 : ℝ) ^ 3 = 1000 by norm_num,
    round_of_small_entropy _ cex_entG_nonneg cex_entG_le]
  norm_num

end Verses
